import Mathlib

/-!
Verification development for the PDF numbering-and-tiling tool (src/main.py).

The file shallowly embeds the four core components of the source —
the page-range parser (parse_page_range), the page normalizer (resize_to_a4),
the grid compositor (merge_images) and the pipeline orchestrator (process_pdf) —
and proves the spec's claims about them.

Modelling conventions:
* Python strings are handled at the character-list level, with the Python
  primitives (str.strip, str.split, int()) re-implemented faithfully for the
  ASCII inputs the tool deals with (Unicode digit forms and underscore digit
  grouping accepted by Python's int() are not modelled; no claim involves them).
* Raster images are a width, a height and a total pixel function; the external
  resampling filter (PIL LANCZOS) and the glyph renderer (ImageDraw.text) are
  abstracted as parameters, since their pixel output is delegated to PIL.
* PIL/pdf2image/file-system effects are inputs of the orchestrator model.
* The IEEE-754 binary64 arithmetic that resize_to_a4 performs is modelled
  exactly (round-to-nearest, ties-to-even, over exact fractions), because one
  claim turns on its rounding behaviour.  The float quotients reported to the
  progress callback, by contrast, are modelled by their exact rational
  values, which is also how the spec states them.
-/

namespace PDFTool

/-! ### Python string primitives -/

/-- Default whitespace stripped by Python str.strip (ASCII part). -/
def isPySpace (c : Char) : Bool :=
  c == ' ' || c == '\t' || c == '\n' || c == '\r' || c == '\x0b' || c == '\x0c'

/-- Python str.strip(): drop leading and trailing whitespace. -/
def pyStrip (cs : List Char) : List Char :=
  ((cs.dropWhile isPySpace).reverse.dropWhile isPySpace).reverse

/-- Python str.split(',') : every comma separates, empty pieces are kept. -/
def splitCommas : List Char → List (List Char)
  | [] => [[]]
  | c :: cs =>
    if c = ',' then [] :: splitCommas cs
    else
      match splitCommas cs with
      | [] => [[c]]
      | r :: rs => (c :: r) :: rs

/-- Value of a nonempty all-digit character run. -/
def digitsVal? (cs : List Char) : Option ℕ :=
  if cs ≠ [] ∧ cs.all Char.isDigit then
    some (cs.foldl (fun n c => 10 * n + (c.toNat - 48)) 0)
  else none

/-- Python int(str): surrounding whitespace ignored, optional sign, decimal
digits; any other shape raises ValueError, modelled as none. -/
def pyInt? (cs : List Char) : Option ℤ :=
  match pyStrip cs with
  | '-' :: rest => (digitsVal? rest).map (fun n => -(n : ℤ))
  | '+' :: rest => (digitsVal? rest).map (fun n => (n : ℤ))
  | rest => (digitsVal? rest).map (fun n => (n : ℤ))

/-! ### Page-range parser (src/main.py lines 10-42) -/

/-- Python range(lo, hi+1) over integers, as a list. -/
def intRange (lo hi : ℤ) : List ℤ :=
  (List.range (hi + 1 - lo).toNat).map (fun i : ℕ => lo + (i : ℤ))

/-- Pages contributed by one comma-separated token of the range expression:
a start-end range (clamped, silently dropped when inverted) when the token
contains a dash, otherwise a single in-bounds page; malformed tokens
contribute nothing (the source's try/except ValueError: continue). -/
def tokenPages (total_pages : ℕ) (cs : List Char) : List ℤ :=
  if '-' ∈ pyStrip cs then
    match pyInt? ((pyStrip cs).takeWhile (fun c => c ≠ '-')),
          pyInt? (((pyStrip cs).dropWhile (fun c => c ≠ '-')).tail) with
    | some a, some b =>
      if max 1 a ≤ min (total_pages : ℤ) b then
        intRange (max 1 a) (min (total_pages : ℤ) b)
      else []
    | _, _ => []
  else
    match pyInt? (pyStrip cs) with
    | some q => if 1 ≤ q ∧ q ≤ (total_pages : ℤ) then [q] else []
    | none => []

/-- Insert into an ascending duplicate-free list, keeping it so. -/
def insertSorted (q : ℤ) : List ℤ → List ℤ
  | [] => [q]
  | a :: t =>
    if q < a then q :: a :: t
    else if q = a then a :: t
    else a :: insertSorted q t

/-- Accumulate a token's pages. -/
def insertAll (acc : List ℤ) (qs : List ℤ) : List ℤ :=
  qs.foldl (fun a q => insertSorted q a) acc

/-- The source's all-pages keyword (Chinese for "all"). -/
def kwAllPages : String := "全部"

/-- parse_page_range(page_range_str, total_pages) from src/main.py.
The source accumulates page numbers in a Python set and returns
sorted(list(pages)); the model maintains the ascending duplicate-free
list directly through sorted insertion, which is extensionally the same. -/
def parse_page_range (page_range_str : String) (total_pages : ℕ) : List ℤ :=
  if pyStrip page_range_str.data = [] ∨ pyStrip page_range_str.data = kwAllPages.data then
    (List.range total_pages).map (fun i : ℕ => (i : ℤ) + 1)
  else
    (splitCommas page_range_str.data).foldl
      (fun acc part => insertAll acc (tokenPages total_pages part)) []

/-! ### Exact model of the IEEE-754 binary64 arithmetic used by resize_to_a4

Rationals are carried as unreduced fractions over ℤ (positive denominators)
rather than as ℚ, because ℚ's normalizing operations do not reduce inside the
kernel; the value semantics is given by Frac.toRat. -/

/-- An exact fraction; every constructor used below keeps the denominator
positive. -/
structure Frac where
  num : ℤ
  den : ℤ
  deriving DecidableEq

/-- Sign-normalizing constructor (a zero denominator, which the source could
only reach by dividing by an empty image dimension, is mapped to 0; Python
would raise ZeroDivisionError there, and every claim assumes positive
dimensions). -/
def Frac.mk' (n d : ℤ) : Frac :=
  if d < 0 then ⟨-n, -d⟩ else if d = 0 then ⟨0, 1⟩ else ⟨n, d⟩

def Frac.ofNat (n : ℕ) : Frac := ⟨(n : ℤ), 1⟩

def Frac.intF (n : ℤ) : Frac := ⟨n, 1⟩

def Frac.neg (a : Frac) : Frac := ⟨-a.num, a.den⟩

def Frac.div (a b : Frac) : Frac := Frac.mk' (a.num * b.den) (a.den * b.num)

def Frac.mul (a b : Frac) : Frac := Frac.mk' (a.num * b.num) (a.den * b.den)

def Frac.sub (a b : Frac) : Frac :=
  Frac.mk' (a.num * b.den - b.num * a.den) (a.den * b.den)

/-- Order by cross multiplication (valid for positive denominators). -/
def Frac.lt (a b : Frac) : Prop := a.num * b.den < b.num * a.den

instance (a b : Frac) : Decidable (Frac.lt a b) := by
  unfold Frac.lt; infer_instance

/-- Mathematical floor (for positive denominators Int.fdiv is the floor). -/
def Frac.floor (a : Frac) : ℤ := Int.fdiv a.num a.den

/-- The rational value a fraction denotes. -/
def Frac.toRat (a : Frac) : ℚ := (a.num : ℚ) / (a.den : ℚ)

/-- 2^e as a fraction, e ∈ ℤ. -/
def pow2 (e : ℤ) : Frac :=
  if 0 ≤ e then ⟨(2 : ℤ) ^ e.toNat, 1⟩ else ⟨1, (2 : ℤ) ^ (-e).toNat⟩

/-- Binade of a positive fraction: the integer e with 2^e ≤ x < 2^(e+1),
searched in a window that amply covers every quantity of this pipeline
(quotients and products of positive integers below 2^40). -/
def dblExp? (x : Frac) : Option ℤ :=
  (List.range 129).findSome? (fun k =>
    let e : ℤ := (k : ℤ) - 64
    if Frac.lt (pow2 e) x ∨ pow2 e = x then
      if Frac.lt x (pow2 (e + 1)) then some e else none
    else none)

/-- Round a positive fraction to the nearest binary64 value (53-bit mantissa,
round-to-nearest, ties-to-even), exactly.  Values whose binade escapes the
search window are returned unrounded; no theorem below reaches that case. -/
def roundPos (x : Frac) : Frac :=
  match dblExp? x with
  | none => x
  | some e =>
    let scale := pow2 (e - 52)
    let scaled := x.div scale
    let lo : ℤ := scaled.floor
    let frac := scaled.sub (Frac.intF lo)
    let m : ℤ :=
      if Frac.lt frac ⟨1, 2⟩ then lo
      else if Frac.lt ⟨1, 2⟩ frac then lo + 1
      else if lo % 2 = 0 then lo else lo + 1
    (Frac.intF m).mul scale

/-- Rounding of any fraction to binary64 (zero and sign handled). -/
def roundDbl (x : Frac) : Frac :=
  if x.num = 0 then ⟨0, 1⟩
  else if 0 < x.num then roundPos x
  else Frac.neg (roundPos x.neg)

/-- Binary64 division: one correctly rounded operation. -/
def fpDiv (a b : Frac) : Frac := roundDbl (a.div b)

/-- Binary64 multiplication: one correctly rounded operation. -/
def fpMul (a b : Frac) : Frac := roundDbl (a.mul b)

/-- The Python float literal 8.27 (nearest binary64 to 827/100). -/
def d827 : Frac := roundDbl ⟨827, 100⟩

/-- The Python float literal 11.69 (nearest binary64 to 1169/100). -/
def d1169 : Frac := roundDbl ⟨1169, 100⟩

/-- int(8.27 * dpi): the source's A4 width in pixels; int() truncates toward
zero and the product is nonnegative, so this is a floor. -/
def a4Width (dpi : ℕ) : ℕ := (fpMul d827 (Frac.ofNat dpi)).floor.toNat

/-- int(11.69 * dpi): the source's A4 height in pixels. -/
def a4Height (dpi : ℕ) : ℕ := (fpMul d1169 (Frac.ofNat dpi)).floor.toNat

def sPortrait : String := "portrait"

def sLandscape : String := "landscape"

/-- The a4_px pair computed at the top of resize_to_a4. -/
def a4Pix (dpi : ℕ) (direction : String) : ℕ × ℕ :=
  if direction = sPortrait then (a4Width dpi, a4Height dpi)
  else (a4Height dpi, a4Width dpi)

/-! ### Raster images (PIL model) -/

/-- RGB color triple. -/
abbrev Color := ℕ × ℕ × ℕ

def whiteColor : Color := (255, 255, 255)

/-- A raster image: dimensions plus a total pixel map.  Theorems only ever
query pixels inside the bounds. -/
structure PImage where
  width : ℕ
  height : ℕ
  pixel : ℕ → ℕ → Color

/-- PIL Image.new(mode, size, color): a solid canvas. -/
def PImage.new (w h : ℕ) (c : Color) : PImage := ⟨w, h, fun _ _ => c⟩

def dfltImg : PImage := PImage.new 0 0 whiteColor

/-- PIL Image.paste(img, (px, py)): overwrite the rectangle of img's size
anchored at (px, py); PIL clips at the canvas border, which the model leaves
implicit because canvas-external pixels are never queried. -/
def PImage.paste (bg img : PImage) (px py : ℤ) : PImage :=
  { bg with
    pixel := fun x y =>
      if px ≤ (x : ℤ) ∧ (x : ℤ) < px + (img.width : ℤ) ∧
          py ≤ (y : ℤ) ∧ (y : ℤ) < py + (img.height : ℤ) then
        img.pixel ((x : ℤ) - px).toNat ((y : ℤ) - py).toNat
      else bg.pixel x y }

/-- Abstract resampling filter: the pixel content PIL's LANCZOS filter would
produce for a given source image and target size.  Kept as a parameter — its
numerics belong to PIL, not to this program. -/
abbrev ResampleFn := PImage → ℕ → ℕ → ℕ → ℕ → Color

/-- PIL Image.resize(size, LANCZOS): Pillow short-circuits to an unchanged
copy when the requested size equals the current size; otherwise the content
comes from the resampling filter. -/
def PImage.resize (resample : ResampleFn) (img : PImage) (w h : ℕ) : PImage :=
  if w = img.width ∧ h = img.height then img
  else ⟨w, h, fun x y => resample img w h x y⟩

/-- resize_to_a4(img, dpi, direction) from src/main.py lines 45-75: scale to
fit inside the A4 canvas preserving aspect ratio, then center on a white
canvas.  The source's float expressions are modelled by exact binary64
rounding (fpDiv / fpMul); int() on the nonnegative results is a floor,
Python's // is Int.fdiv. -/
def resize_to_a4 (resample : ResampleFn) (img : PImage) (dpi : ℕ)
    (direction : String) : PImage :=
  let a4_px := a4Pix dpi direction
  let img_ratio := fpDiv (Frac.ofNat img.width) (Frac.ofNat img.height)
  let a4_ratio := fpDiv (Frac.ofNat a4_px.1) (Frac.ofNat a4_px.2)
  let nwh : ℕ × ℕ :=
    if Frac.lt a4_ratio img_ratio then
      (a4_px.1, (fpDiv (Frac.ofNat a4_px.1) img_ratio).floor.toNat)
    else
      ((fpMul (Frac.ofNat a4_px.2) img_ratio).floor.toNat, a4_px.2)
  let resized := PImage.resize resample img nwh.1 nwh.2
  let bg := PImage.new a4_px.1 a4_px.2 whiteColor
  let paste_x := Int.fdiv ((a4_px.1 : ℤ) - (nwh.1 : ℤ)) 2
  let paste_y := Int.fdiv ((a4_px.2 : ℤ) - (nwh.2 : ℤ)) 2
  bg.paste resized paste_x paste_y

/-- Pixel-identical images: same dimensions, same pixels inside them. -/
def PixelEq (a b : PImage) : Prop :=
  a.width = b.width ∧ a.height = b.height ∧
  ∀ x < a.width, ∀ y < a.height, a.pixel x y = b.pixel x y

/-- A trivial concrete resampling filter, used to instantiate witnesses. -/
def trivResample : ResampleFn := fun _ _ _ _ _ => whiteColor

/-! ### Grid compositor (src/main.py lines 78-98) -/

/-- The paste loop of merge_images: for idx, img in enumerate(group):
canvas.paste(img, ((idx % cols) * w, (idx // cols) * h)). -/
def pasteLoop (cols w h : ℕ) : PImage → ℕ → List PImage → PImage
  | canvas, _, [] => canvas
  | canvas, idx, img :: rest =>
    pasteLoop cols w h
      (canvas.paste img ((idx % cols) * w : ℕ) ((idx / cols) * h : ℕ))
      (idx + 1) rest

/-- One composite sheet from one chunk: a white canvas of cols·w × rows·h
(w, h the first image's dimensions — the source's w, h = group[0].size) with
the chunk pasted row-major. -/
def mkSheet (rows cols : ℕ) (group : List PImage) : PImage :=
  pasteLoop cols (group.headD dfltImg).width (group.headD dfltImg).height
    (PImage.new (cols * (group.headD dfltImg).width)
      (rows * (group.headD dfltImg).height) whiteColor)
    0 group

/-- Consecutive chunks of size k, at most fuel of them; range(0, len, k)
visits at most len start indices, so len is enough fuel for k ≥ 1. -/
def chunksGo (k : ℕ) : ℕ → List PImage → List (List PImage)
  | 0, _ => []
  | _ + 1, [] => []
  | fuel + 1, a :: as => (a :: as).take k :: chunksGo k fuel ((a :: as).drop k)

/-- merge_images(images, rows, cols) from src/main.py lines 78-98, for
positive rows·cols.  (For rows·cols = 0 the source raises ValueError inside
range(); for a negative product the range is empty and no sheet is produced;
both are handled where the orchestrator model calls this, see process_try.) -/
def merge_images (images : List PImage) (rows cols : ℕ) : List PImage :=
  (chunksGo (rows * cols) images.length images).map (mkSheet rows cols)

/-! ### Pipeline orchestrator (src/main.py lines 101-190) -/

/-- The parameter bundle, already converted from the GUI's strings (the int()
conversions of lines 106-118 are assumed to have succeeded; their possible
ValueError goes through the same top-level handler but no claim concerns it).
rows and cols are kept as ℤ precisely because the source never validates
their sign. -/
structure JobParams where
  pdf_path : String
  dpi : ℕ
  rows : ℤ
  cols : ℤ
  direction : String
  pfx : String
  fontsize : ℤ
  x_pos : ℤ
  y_pos : ℤ
  font : String
  color : Color
  page_range : String
  output_format : String

/-- Externally observable callback/library events of one process_pdf run,
in order of occurrence. -/
inductive Event where
  | progress (value : ℚ)
  | mergeInvoked (rows cols : ℤ)
  | doneNotified (path : String)
  | errorShown (title message : String)
  deriving DecidableEq

/-- Abstract glyph renderer: the pixel effect of ImageDraw.text((x, y),
label, fill, font) belongs to PIL; the label string it receives is what the
claims are about. -/
abbrev DrawFn := PImage → ℤ → ℤ → String → Color → PImage

/-- Python list.index for an element present in the list (first position). -/
def indexOfInt : List ℤ → ℤ → ℕ
  | [], _ => 0
  | q :: qs, p => if q = p then 0 else indexOfInt qs p + 1

/-- The numbering decision for one page (src/main.py lines 150-161): the
label drawn on current_page, if any — prefix, a dot, then 1 plus the page's
position within numbering_pages. -/
def stampLabel (numbering_pages : List ℤ) (pfx : String) (current_page : ℤ) :
    Option String :=
  if current_page ∈ numbering_pages then
    some (pfx ++ "." ++ toString (indexOfInt numbering_pages current_page + 1))
  else none

/-- The per-page loop of process_pdf (lines 143-163): resize to A4, then draw
the numbering label when the page is selected (the font fallback of lines
152-157 never fails, so the draw always happens for selected pages). -/
def processPagesGo (resample : ResampleFn) (drawText : DrawFn) (p : JobParams)
    (direction : String) (numbering_pages : List ℤ) :
    ℕ → List PImage → List PImage
  | _, [] => []
  | idx, img :: rest =>
    let current_page : ℤ := (idx : ℤ) + 1
    let img2 := resize_to_a4 resample img p.dpi direction
    let img3 :=
      match stampLabel numbering_pages p.pfx current_page with
      | some label => drawText img2 p.x_pos p.y_pos label p.color
      | none => img2
    img3 :: processPagesGo resample drawText p direction numbering_pages (idx + 1) rest

/-- The label stamped on each page of a run (page p is entry p - 1): exactly
the stampLabel calls processPagesGo makes, page by page. -/
def pipelineLabels (page_range pfx : String) (total_pages : ℕ) :
    List (Option String) :=
  (List.range total_pages).map
    (fun idx : ℕ => stampLabel (parse_page_range page_range total_pages) pfx ((idx : ℤ) + 1))

/-- Python str.replace(".pdf", rep), fueled (each step consumes at least one
character, so the length is enough fuel). -/
def replaceDotPdfGo (rep : List Char) : ℕ → List Char → List Char
  | 0, _ => []
  | fuel + 1, l =>
    match l with
    | [] => []
    | c :: cs =>
      if c = '.' ∧ ['p', 'd', 'f'].isPrefixOf cs then
        rep ++ replaceDotPdfGo rep fuel (cs.drop 3)
      else c :: replaceDotPdfGo rep fuel cs

/-- Python str.replace(".pdf", rep): replace every occurrence. -/
def replaceDotPdf (rep l : List Char) : List Char :=
  replaceDotPdfGo rep l.length l

/-- Python str.lower (ASCII suffices for the output formats). -/
def pyLower (s : String) : String := String.mk (s.data.map Char.toLower)

def msgNoPages : String := "未能转换任何页面"

def msgZeroStep : String := "range() arg 3 must not be zero"

def msgNegSize : String := "width and height must be >= 0"

def msgEmptyOutput : String := "list index out of range"

def sPdf : String := "pdf"

def sPortraitCn : String := "纵向"

def outSuffix : String := "_输出."

def sErrTitle : String := "错误"

/-- The dialog text of line 190: 处理失败 followed by str(e). -/
def failMsg (e : String) : String := "处理失败：" ++ e

/-- The output path of line 173: input_pdf.replace(".pdf", "_输出." + fmt). -/
def outputPathOf (p : JobParams) : String :=
  String.mk (replaceDotPdf (outSuffix ++ pyLower p.output_format).data p.pdf_path.data)

/-- The save step (lines 172-187): output path derivation, PDF vs JPG save,
then the completion callback.  saveResult is the externally determined
outcome of the actual file write; with no sheet and PDF output the source
hits merged_images[0] (IndexError), with no sheet and JPG output the loop
writes nothing and the run still "succeeds". -/
def finishSave (p : JobParams) (merged : List PImage) (evs : List Event)
    (saveResult : Except String Unit) : List Event × Except String String :=
  if pyLower p.output_format = sPdf then
    match merged with
    | [] => (evs, Except.error msgEmptyOutput)
    | _ :: _ =>
      match saveResult with
      | Except.error m => (evs, Except.error m)
      | Except.ok _ =>
        (evs ++ [Event.doneNotified (outputPathOf p)], Except.ok (outputPathOf p))
  else
    match merged, saveResult with
    | [], _ =>
      (evs ++ [Event.doneNotified (outputPathOf p)], Except.ok (outputPathOf p))
    | _ :: _, Except.error m => (evs, Except.error m)
    | _ :: _, Except.ok _ =>
      (evs ++ [Event.doneNotified (outputPathOf p)], Except.ok (outputPathOf p))

/-- The events the try block has produced by the time merge_images is
entered: one progress callback per page — (idx+1)/total_steps*100 with
total_steps = total_pages + 2 (line 167) — then the compositor invocation
itself (line 170). -/
def preMergeEvents (p : JobParams) (total_pages : ℕ) : List Event :=
  ((List.range total_pages).map
      (fun idx : ℕ =>
        Event.progress (((idx : ℚ) + 1) / ((total_pages + 2 : ℕ) : ℚ) * 100)))
    ++ [Event.mergeInvoked p.rows p.cols]

/-- Lines 169-187: the compositor call and the save step.  The source never
validates rows/cols; with rows·cols = 0 Python's range raises ValueError
inside merge_images, with a negative product the range is empty (no sheets),
and with both factors negative PIL rejects the negative canvas size. -/
def mergeAndSave (p : JobParams) (processed : List PImage) (evs : List Event)
    (saveResult : Except String Unit) : List Event × Except String String :=
  if p.rows * p.cols = 0 then (evs, Except.error msgZeroStep)
  else if p.rows * p.cols < 0 then finishSave p [] evs saveResult
  else if p.rows < 0 then (evs, Except.error msgNegSize)
  else finishSave p (merge_images processed p.rows.toNat p.cols.toNat) evs saveResult

/-- The body of the try block of process_pdf (lines 105-187), up to and
including the completion callback.  renderResult stands for the external
renderer convert_from_path: its page list, or the message of the exception it
raised.  The Except component is the outcome the top-level handler sees. -/
def process_try (resample : ResampleFn) (drawText : DrawFn) (p : JobParams)
    (renderResult : Except String (List PImage))
    (saveResult : Except String Unit) : List Event × Except String String :=
  match renderResult with
  | Except.error msg => ([], Except.error msg)
  | Except.ok images =>
    if images.length = 0 then ([], Except.error msgNoPages)
    else
      mergeAndSave p
        (processPagesGo resample drawText p
          (if p.direction = sPortraitCn then sPortrait else sLandscape)
          (parse_page_range p.page_range images.length) 0 images)
        (preMergeEvents p images.length) saveResult

/-- process_pdf's top-level try/except (lines 105-190): on any exception, one
error dialog and nothing else; otherwise the try block's events as they
happened. -/
def process_pdf (resample : ResampleFn) (drawText : DrawFn) (p : JobParams)
    (renderResult : Except String (List PImage))
    (saveResult : Except String Unit) : List Event :=
  match process_try resample drawText p renderResult saveResult with
  | (evs, Except.ok _) => evs
  | (evs, Except.error e) => evs ++ [Event.errorShown sErrTitle (failMsg e)]

/-- The progress-callback arguments of a run, in order. -/
def progressValues (evs : List Event) : List ℚ :=
  evs.filterMap (fun e =>
    match e with
    | Event.progress q => some q
    | _ => none)

/-- True exactly on error-dialog events. -/
def Event.isErrorDialog : Event → Bool
  | Event.errorShown _ _ => true
  | _ => false

/-! ### Helper notions used by the theorems -/

/-- The fold of parse_page_range's non-keyword branch. -/
def foldParts (n : ℕ) (acc : List ℤ) (parts : List (List Char)) : List ℤ :=
  parts.foldl (fun acc part => insertAll acc (tokenPages n part)) acc

/-- The w×h pixel rectangle that chunk-local index j occupies on a sheet. -/
def inCell (cols w h j x y : ℕ) : Prop :=
  (j % cols) * w ≤ x ∧ x < (j % cols) * w + w ∧
    (j / cols) * h ≤ y ∧ y < (j / cols) * h + h

/-! ### Concrete inputs for witnesses and counterexamples -/

/-- A trivial concrete glyph renderer. -/
def trivDraw : DrawFn := fun img _ _ _ _ => img

/-- A well-formed parameter bundle (GUI defaults, dpi lowered to 1). -/
def sampleParams : JobParams where
  pdf_path := "doc.pdf"
  dpi := 1
  rows := 1
  cols := 1
  direction := "纵向"
  pfx := "X"
  fontsize := 65
  x_pos := 40
  y_pos := 40
  font := "黑体"
  color := (255, 0, 0)
  page_range := ""
  output_format := "PDF"

/-- The same bundle with rows = 0 (an invalid grid the source never rejects). -/
def rows0Params : JobParams := { sampleParams with rows := 0, cols := 2 }

/-- A small page image. -/
def imgA : PImage := PImage.new 3 4 (1, 2, 3)

/-- A black image that already has the dpi-15 portrait canvas size 124×175. -/
def imgBlack15 : PImage := PImage.new 124 175 (0, 0, 0)

/-- An image that already has the dpi-300 portrait canvas size. -/
def imgA4at300 : PImage := PImage.new 2481 3507 (5, 6, 7)

/-- Five 1×1 images of distinct colors. -/
def imgs5 : List PImage :=
  [PImage.new 1 1 (10, 0, 0), PImage.new 1 1 (20, 0, 0), PImage.new 1 1 (30, 0, 0),
    PImage.new 1 1 (40, 0, 0), PImage.new 1 1 (50, 0, 0)]

/-- Concrete page-range expressions and label strings from the spec's
examples (defined here so theorems can apply functions to them). -/
def sAll : String := "all"

def sAllRange : String := "1-3,6,8-10"

def sInv : String := "5-2"

def sBad : String := "1,abc,3"

def sTwoFour : String := "2,4"

def sEmptyish : String := "  "

def sX : String := "X"

def lblX1 : String := "X.1"

def lblX2 : String := "X.2"

def sOne : String := "1"

def sAbc : String := "abc"

def sThree : String := "3"

def sComma : String := ","

/-- A sample renderer failure message, for the C9 witness. -/
def msgRenderFail : String := "renderer failure"

/-- The output path sampleParams leads to. -/
def outPathPdf : String := "doc_输出.pdf"

/-! ## Properties of the page-range parser -/

theorem mem_insertSorted (q x : ℤ) :
    ∀ l : List ℤ, x ∈ insertSorted q l ↔ x = q ∨ x ∈ l := by
  intro l
  induction l with
  | nil => simp [insertSorted]
  | cons a t ih =>
    simp only [insertSorted]
    split
    · simp only [List.mem_cons]
    · split
      · rename_i h2
        subst h2
        simp only [List.mem_cons]
        tauto
      · simp only [List.mem_cons, ih]
        tauto

theorem sorted_insertSorted (q : ℤ) (l : List ℤ) (hl : l.Sorted (· < ·)) :
    (insertSorted q l).Sorted (· < ·) := by
  induction l with
  | nil => simp [insertSorted]
  | cons a t ih =>
    rw [List.sorted_cons] at hl
    by_cases h1 : q < a
    · simp only [insertSorted, if_pos h1]
      rw [List.sorted_cons]
      refine ⟨?_, List.sorted_cons.mpr hl⟩
      intro b hb
      rcases List.mem_cons.mp hb with hb | hb
      · subst hb; exact h1
      · exact h1.trans (hl.1 b hb)
    · by_cases h2 : q = a
      · simp only [insertSorted, if_neg h1, if_pos h2]
        exact List.sorted_cons.mpr hl
      · have ha : a < q := lt_of_le_of_ne (not_lt.mp h1) (Ne.symm h2)
        simp only [insertSorted, if_neg h1, if_neg h2]
        rw [List.sorted_cons]
        refine ⟨?_, ih hl.2⟩
        intro b hb
        rcases (mem_insertSorted q b t).mp hb with hb | hb
        · subst hb; exact ha
        · exact hl.1 b hb

theorem mem_insertAll (x : ℤ) :
    ∀ (qs acc : List ℤ), x ∈ insertAll acc qs ↔ x ∈ acc ∨ x ∈ qs := by
  intro qs
  induction qs with
  | nil => simp [insertAll]
  | cons q qs ih =>
    intro acc
    have : insertAll acc (q :: qs) = insertAll (insertSorted q acc) qs := rfl
    rw [this, ih, mem_insertSorted]
    simp only [List.mem_cons]
    tauto

theorem sorted_insertAll :
    ∀ (qs acc : List ℤ), acc.Sorted (· < ·) → (insertAll acc qs).Sorted (· < ·) := by
  intro qs
  induction qs with
  | nil => intro acc h; exact h
  | cons q qs ih =>
    intro acc h
    exact ih (insertSorted q acc) (sorted_insertSorted q acc h)

theorem sorted_foldParts (n : ℕ) :
    ∀ (parts : List (List Char)) (acc : List ℤ), acc.Sorted (· < ·) →
      (foldParts n acc parts).Sorted (· < ·) := by
  intro parts
  induction parts with
  | nil => intro acc h; exact h
  | cons p ps ih =>
    intro acc h
    exact ih (insertAll acc (tokenPages n p)) (sorted_insertAll _ acc h)

theorem mem_foldParts (n : ℕ) (x : ℤ) :
    ∀ (parts : List (List Char)) (acc : List ℤ),
      x ∈ foldParts n acc parts ↔ x ∈ acc ∨ ∃ part ∈ parts, x ∈ tokenPages n part := by
  intro parts
  induction parts with
  | nil => intro acc; simp [foldParts]
  | cons p ps ih =>
    intro acc
    have : foldParts n acc (p :: ps) = foldParts n (insertAll acc (tokenPages n p)) ps := rfl
    rw [this, ih, mem_insertAll]
    simp only [List.mem_cons]
    constructor
    · rintro ((h | h) | ⟨part, hp, hx⟩)
      · exact Or.inl h
      · exact Or.inr ⟨p, Or.inl rfl, h⟩
      · exact Or.inr ⟨part, Or.inr hp, hx⟩
    · rintro (h | ⟨part, (rfl | hp), hx⟩)
      · exact Or.inl (Or.inl h)
      · exact Or.inl (Or.inr hx)
      · exact Or.inr ⟨part, hp, hx⟩

theorem mem_intRange {x lo hi : ℤ} (h : x ∈ intRange lo hi) : lo ≤ x ∧ x ≤ hi := by
  simp only [intRange, List.mem_map, List.mem_range] at h
  obtain ⟨i, hi', rfl⟩ := h
  omega

theorem tokenPages_bounds {n : ℕ} {cs : List Char} {q : ℤ}
    (h : q ∈ tokenPages n cs) : 1 ≤ q ∧ q ≤ (n : ℤ) := by
  unfold tokenPages at h
  split at h
  · split at h
    · rename_i a b _
      split at h
      · rename_i hle
        have hb := mem_intRange h
        omega
      · simp at h
    · simp at h
  · split at h
    · rename_i q' _
      split at h
      · rename_i hq
        rcases List.mem_singleton.mp h with rfl
        exact hq
      · simp at h
    · simp at h

theorem parse_page_range_sorted (s : String) (n : ℕ) :
    (parse_page_range s n).Sorted (· < ·) := by
  unfold parse_page_range
  split
  · rw [List.Sorted, List.pairwise_map]
    refine (List.pairwise_lt_range n).imp ?_
    intro a b h
    omega
  · exact sorted_foldParts n _ [] (by simp)

theorem parse_page_range_bounds {s : String} {n : ℕ} {q : ℤ}
    (h : q ∈ parse_page_range s n) : 1 ≤ q ∧ q ≤ (n : ℤ) := by
  unfold parse_page_range at h
  split at h
  · simp only [List.mem_map, List.mem_range] at h
    obtain ⟨i, hi, rfl⟩ := h
    omega
  · rcases (mem_foldParts n q _ []).mp h with h | ⟨part, _, hp⟩
    · simp at h
    · exact tokenPages_bounds hp

/-- C2: for every expression string and every total page count, parse returns
a strictly ascending (hence duplicate-free) list of integers, each within
[1, total_pages]. -/
theorem c2_parse_strictly_ascending_in_bounds (s : String) (n : ℕ) :
    (parse_page_range s n).Sorted (· < ·) ∧ (parse_page_range s n).Nodup ∧
      ∀ q ∈ parse_page_range s n, 1 ≤ q ∧ q ≤ (n : ℤ) :=
  ⟨parse_page_range_sorted s n, (parse_page_range_sorted s n).nodup,
    fun _ hq => parse_page_range_bounds hq⟩

/-- C3 as stated is false: the source's all-pages keyword is 全部, and the
English literal "all" falls through to tokenization, where it is dropped as
malformed: parse "all" 1 is [], not [1]. -/
theorem c3_counterexample_english_all :
    parse_page_range sAll 1 = [] ∧
      parse_page_range sAll 1 ≠ (List.range 1).map (fun i : ℕ => (i : ℤ) + 1) :=
  ⟨by decide, by decide⟩

/-- C3 amended: for every N ≥ 1, parse of an empty or all-whitespace
expression returns [1, …, N], and so does parse of the source's literal
keyword 全部; the English string "all" is not a recognized keyword. -/
theorem c3_empty_and_keyword_select_all (s : String) (N : ℕ) (hN : 1 ≤ N)
    (hs : pyStrip s.data = []) :
    parse_page_range s N = (List.range N).map (fun i : ℕ => (i : ℤ) + 1) ∧
      parse_page_range kwAllPages N = (List.range N).map (fun i : ℕ => (i : ℤ) + 1) := by
  constructor
  · unfold parse_page_range
    rw [if_pos (Or.inl hs)]
  · unfold parse_page_range
    rw [if_pos (Or.inr (by decide))]

theorem c3_empty_and_keyword_select_all_witness :
    (1 ≤ 3 ∧ pyStrip sEmptyish.data = []) ∧
      (parse_page_range sEmptyish 3 = (List.range 3).map (fun i : ℕ => (i : ℤ) + 1) ∧
        parse_page_range kwAllPages 3 = (List.range 3).map (fun i : ℕ => (i : ℤ) + 1)) :=
  ⟨⟨by decide, by decide⟩, c3_empty_and_keyword_select_all sEmptyish 3 (by decide) (by decide)⟩

theorem splitCommas_ne_nil : ∀ cs : List Char, splitCommas cs ≠ [] := by
  intro cs
  induction cs with
  | nil => simp [splitCommas]
  | cons c cs ih =>
    by_cases h : c = ','
    · simp [splitCommas, h]
    · simp only [splitCommas, if_neg h]
      split
      · simp
      · simp

theorem splitCommas_cons_comma (cs : List Char) :
    splitCommas (',' :: cs) = [] :: splitCommas cs := by
  simp [splitCommas]

theorem splitCommas_cons_other {c : Char} (h : c ≠ ',') (cs : List Char) :
    splitCommas (c :: cs) =
      match splitCommas cs with
      | [] => [[c]]
      | r :: rs => (c :: r) :: rs := by
  simp [splitCommas, h]

theorem splitCommas_append (a b : List Char) :
    splitCommas (a ++ ',' :: b) = splitCommas a ++ splitCommas b := by
  induction a with
  | nil => simp [splitCommas]
  | cons c a' ih =>
    by_cases h : c = ','
    · subst h
      rw [List.cons_append, splitCommas_cons_comma, splitCommas_cons_comma, ih]
      rfl
    · rw [List.cons_append, splitCommas_cons_other h, splitCommas_cons_other h, ih]
      rcases hsp : splitCommas a' with _ | ⟨r, rs⟩
      · exact absurd hsp (splitCommas_ne_nil a')
      · simp

theorem splitCommas_no_comma {cs : List Char} (h : ',' ∉ cs) :
    splitCommas cs = [cs] := by
  induction cs with
  | nil => simp [splitCommas]
  | cons c cs ih =>
    have hc : c ≠ ',' := by
      intro hc; exact h (by simp [hc])
    have hcs : ',' ∉ cs := fun hm => h (List.mem_cons_of_mem _ hm)
    simp only [splitCommas, if_neg (fun hh => hc hh), ih hcs]

theorem mem_dropWhile_of_mem {p : Char → Bool} {c : Char} (hc : p c = false) :
    ∀ {l : List Char}, c ∈ l → c ∈ l.dropWhile p := by
  intro l
  induction l with
  | nil => intro h; exact h
  | cons a t ih =>
    intro h
    by_cases ha : p a = true
    · rw [List.dropWhile_cons_of_pos ha]
      rcases List.mem_cons.mp h with rfl | h
      · rw [ha] at hc; cases hc
      · exact ih h
    · rw [List.dropWhile_cons_of_neg ha]
      exact h

theorem mem_pyStrip {c : Char} {cs : List Char} (h : c ∈ cs)
    (hc : isPySpace c = false) : c ∈ pyStrip cs := by
  unfold pyStrip
  rw [List.mem_reverse]
  apply mem_dropWhile_of_mem hc
  rw [List.mem_reverse]
  exact mem_dropWhile_of_mem hc h

/-- An expression containing a comma never takes the all-pages branch. -/
theorem comma_expr_not_keyword {u : List Char} (hu : ',' ∈ u) :
    ¬(pyStrip u = [] ∨ pyStrip u = kwAllPages.data) := by
  intro h
  have hmem : ',' ∈ pyStrip u := mem_pyStrip hu (by decide)
  rcases h with h | h
  · rw [h] at hmem; simp at hmem
  · rw [h] at hmem; revert hmem; decide

theorem strData_append (s t : String) : (s ++ t).data = s.data ++ t.data := rfl

/-- C4: the expression as a whole never fails — a token that contributes
nothing (malformed, or an inverted range) can be removed from the expression
without changing the result, the remaining valid tokens being kept; and the
spec's two concrete examples. -/
theorem c4_malformed_tokens_dropped :
    (∀ (pre t post : String) (n : ℕ), ',' ∉ t.data → tokenPages n t.data = [] →
        parse_page_range (pre ++ sComma ++ t ++ sComma ++ post) n =
          parse_page_range (pre ++ sComma ++ post) n) ∧
      parse_page_range sInv 10 = [] ∧ parse_page_range sBad 10 = [1, 3] := by
  refine ⟨?_, by decide, by decide⟩
  intro pre t post n hnc htok
  have hd1 : (pre ++ sComma ++ t ++ sComma ++ post).data
      = pre.data ++ ',' :: (t.data ++ ',' :: post.data) := by
    simp [strData_append, sComma]
  have hd2 : (pre ++ sComma ++ post).data = pre.data ++ ',' :: post.data := by
    simp [strData_append, sComma]
  have hc1 : ',' ∈ (pre ++ sComma ++ t ++ sComma ++ post).data := by
    rw [hd1]; simp
  have hc2 : ',' ∈ (pre ++ sComma ++ post).data := by
    rw [hd2]; simp
  unfold parse_page_range
  rw [if_neg (comma_expr_not_keyword hc1), if_neg (comma_expr_not_keyword hc2)]
  rw [hd1, hd2, splitCommas_append, splitCommas_append, splitCommas_append,
    splitCommas_no_comma hnc]
  show foldParts n [] (splitCommas pre.data ++ ([t.data] ++ splitCommas post.data))
      = foldParts n [] (splitCommas pre.data ++ splitCommas post.data)
  unfold foldParts
  rw [List.foldl_append, List.foldl_append, List.foldl_append]
  simp [insertAll, htok]

theorem c4_malformed_tokens_dropped_witness :
    (',' ∉ sAbc.data ∧ tokenPages 10 sAbc.data = []) ∧
      parse_page_range (sOne ++ sComma ++ sAbc ++ sComma ++ sThree) 10 =
        parse_page_range (sOne ++ sComma ++ sThree) 10 :=
  ⟨⟨by decide, by decide⟩,
    c4_malformed_tokens_dropped.1 sOne sAbc sThree 10 (by decide) (by decide)⟩

/-! ## Properties of the label assignment -/

theorem indexOfInt_sorted_eq_filter_length :
    ∀ {l : List ℤ}, l.Sorted (· < ·) → ∀ {p : ℤ}, p ∈ l →
      indexOfInt l p = (l.filter (fun q => decide (q < p))).length := by
  intro l
  induction l with
  | nil => intro _ p hp; simp at hp
  | cons a t ih =>
    intro hs p hp
    by_cases hap : a = p
    · subst hap
      have hnil : t.filter (fun q => decide (q < a)) = [] := by
        rw [List.filter_eq_nil_iff]
        intro q hq
        have haq := List.rel_of_sorted_cons hs q hq
        simp only [decide_eq_true_eq]
        omega
      simp only [indexOfInt, if_pos rfl, List.filter_cons]
      simp [hnil]
    · have hpt : p ∈ t := by
        rcases List.mem_cons.mp hp with h | h
        · exact absurd h.symm hap
        · exact h
      have hap' : a < p := List.rel_of_sorted_cons hs p hpt
      simp only [indexOfInt, if_neg hap, List.filter_cons]
      rw [ih hs.of_cons hpt]
      simp [hap']

/-- C1: the pipeline stamps page p with prefix.k exactly when p is in the
parsed selection, where k − 1 counts the selected pages smaller than p (the
1-based position of p within the ascending selection), and stamps nothing on
unselected pages. -/
theorem c1_label_iff_selected (n : ℕ) (hn : 1 ≤ n) (expr pfx : String)
    (p : ℕ) (hp1 : 1 ≤ p) (hpn : p ≤ n) :
    (pipelineLabels expr pfx n).getD (p - 1) none =
      if (p : ℤ) ∈ parse_page_range expr n then
        some (pfx ++ "." ++ toString
          (((parse_page_range expr n).filter
            (fun q => decide (q < (p : ℤ)))).length + 1))
      else none := by
  have hlt : p - 1 < n := by omega
  unfold pipelineLabels
  rw [List.getD_eq_getElem?_getD, List.getElem?_map, List.getElem?_range hlt]
  have hcast : ((p - 1 : ℕ) : ℤ) + 1 = (p : ℤ) := by omega
  simp only [Option.map_some', Option.getD_some, hcast]
  unfold stampLabel
  split
  · rename_i hmem
    rw [indexOfInt_sorted_eq_filter_length (parse_page_range_sorted expr n) hmem]
  · rfl

theorem c1_label_iff_selected_witness :
    ((pipelineLabels sTwoFour sX 5).getD 1 none =
      if ((2 : ℕ) : ℤ) ∈ parse_page_range sTwoFour 5 then
        some (sX ++ "." ++ toString
          (((parse_page_range sTwoFour 5).filter
            (fun q => decide (q < ((2 : ℕ) : ℤ)))).length + 1))
      else none) ∧
      pipelineLabels sTwoFour sX 5 = [none, some lblX1, none, some lblX2, none] :=
  ⟨c1_label_iff_selected 5 (by decide) sTwoFour sX 2 (by decide) (by decide), by decide⟩

/-! ## Properties of the page normalizer -/

/-- C5: the normalizer's output always has exactly the fixed canvas size of
the requested dpi and orientation, whatever the input dimensions; at dpi 300
portrait that canvas is exactly 2481 × 3507. -/
theorem c5_fixed_canvas (resample : ResampleFn) (img : PImage) (dpi : ℕ)
    (direction : String) (hw : 0 < img.width) (hh : 0 < img.height) :
    ((resize_to_a4 resample img dpi direction).width,
        (resize_to_a4 resample img dpi direction).height) = a4Pix dpi direction ∧
      ((resize_to_a4 resample img 300 sPortrait).width,
        (resize_to_a4 resample img 300 sPortrait).height) = (2481, 3507) := by
  constructor
  · rfl
  · show a4Pix 300 sPortrait = (2481, 3507)
    decide

theorem c5_fixed_canvas_witness :
    (0 < imgA.width ∧ 0 < imgA.height) ∧
      (((resize_to_a4 trivResample imgA 7 sLandscape).width,
          (resize_to_a4 trivResample imgA 7 sLandscape).height) = a4Pix 7 sLandscape ∧
        ((resize_to_a4 trivResample imgA 300 sPortrait).width,
          (resize_to_a4 trivResample imgA 300 sPortrait).height) = (2481, 3507)) :=
  ⟨⟨by decide, by decide⟩,
    c5_fixed_canvas trivResample imgA 7 sLandscape (by decide) (by decide)⟩

/-- Pasting a full-canvas-sized image at (0, 0) reproduces it pixel for
pixel. -/
theorem pixelEq_paste_full (img : PImage) (c : Color) :
    PixelEq (PImage.paste (PImage.new img.width img.height c) img 0 0) img := by
  refine ⟨rfl, rfl, ?_⟩
  intro x hx y hy
  show (if (0 : ℤ) ≤ (x : ℤ) ∧ (x : ℤ) < 0 + (img.width : ℤ) ∧
      (0 : ℤ) ≤ (y : ℤ) ∧ (y : ℤ) < 0 + (img.height : ℤ) then
      img.pixel ((x : ℤ) - 0).toNat ((y : ℤ) - 0).toNat
    else c) = img.pixel x y
  have hx' : x < img.width := hx
  have hy' : y < img.height := hy
  rw [if_pos (by constructor <;> [omega; (constructor <;> [omega; (constructor <;> omega)])])]
  norm_num

/-- C7 as stated is false: at dpi 15 portrait the canvas is 124 × 175, and
the source's binary64 arithmetic computes int(175 * (124 / 175)) = 123, so an
already-canvas-sized image is re-resampled to 123 × 175 and re-embedded; the
output's last pixel column is canvas white instead of the original black. -/
theorem c7_counterexample_dpi15 :
    imgBlack15.width = (a4Pix 15 sPortrait).1 ∧
      imgBlack15.height = (a4Pix 15 sPortrait).2 ∧
      ¬PixelEq (resize_to_a4 trivResample imgBlack15 15 sPortrait) imgBlack15 := by
  refine ⟨by decide, by decide, ?_⟩
  intro h
  have hpix := h.2.2 123 (by decide) 0 (by decide)
  revert hpix
  decide

/-- C7 amended: normalizing an image that already has the canvas size is
pixel-identical whenever the binary64 roundtrip int(a4_h * (a4_w / a4_h))
recovers a4_w exactly.  That condition holds at the tool's default dpi 300
(both orientations, see the witness) but not at every dpi: dpi 15 is the
counterexample above. -/
theorem c7_idempotent_when_roundtrip_exact (resample : ResampleFn)
    (img : PImage) (dpi : ℕ) (direction : String)
    (hw : img.width = (a4Pix dpi direction).1)
    (hh : img.height = (a4Pix dpi direction).2)
    (hq : (fpMul (Frac.ofNat (a4Pix dpi direction).2)
        (fpDiv (Frac.ofNat (a4Pix dpi direction).1)
          (Frac.ofNat (a4Pix dpi direction).2))).floor
        = ((a4Pix dpi direction).1 : ℤ)) :
    PixelEq (resize_to_a4 resample img dpi direction) img := by
  rcases hA : a4Pix dpi direction with ⟨W, H⟩
  rw [hA] at hw hh hq
  dsimp only at hw hh hq
  have hlt : ¬Frac.lt (fpDiv (Frac.ofNat W) (Frac.ofNat H))
      (fpDiv (Frac.ofNat W) (Frac.ofNat H)) := by
    unfold Frac.lt
    omega
  unfold resize_to_a4
  rw [hA]
  dsimp only
  rw [hw, hh, if_neg hlt]
  dsimp only
  rw [hq, Int.toNat_natCast]
  unfold PImage.resize
  rw [if_pos ⟨hw.symm, hh.symm⟩]
  rw [sub_self, sub_self, Int.zero_fdiv]
  rw [← hw, ← hh]
  exact pixelEq_paste_full img whiteColor

theorem c7_idempotent_witness :
    (imgA4at300.width = (a4Pix 300 sPortrait).1 ∧
      imgA4at300.height = (a4Pix 300 sPortrait).2 ∧
      (fpMul (Frac.ofNat (a4Pix 300 sPortrait).2)
        (fpDiv (Frac.ofNat (a4Pix 300 sPortrait).1)
          (Frac.ofNat (a4Pix 300 sPortrait).2))).floor
        = ((a4Pix 300 sPortrait).1 : ℤ)) ∧
      PixelEq (resize_to_a4 trivResample imgA4at300 300 sPortrait) imgA4at300 :=
  ⟨⟨by decide, by decide, by decide⟩,
    c7_idempotent_when_roundtrip_exact trivResample imgA4at300 300 sPortrait
      (by decide) (by decide) (by decide)⟩

/-! ## Properties of the grid compositor -/

theorem chunksGo_nil (k : ℕ) : ∀ fuel, chunksGo k fuel [] = [] := by
  intro fuel
  cases fuel <;> rfl

theorem chunksGo_length (k : ℕ) (hk : 1 ≤ k) :
    ∀ (fuel : ℕ) (l : List PImage), l.length ≤ fuel →
      (chunksGo k fuel l).length = (l.length + k - 1) / k := by
  intro fuel
  induction fuel with
  | zero =>
    intro l hl
    have hnil : l = [] := List.eq_nil_of_length_eq_zero (by omega)
    subst hnil
    simp [chunksGo, Nat.div_eq_of_lt (show k - 1 < k by omega)]
  | succ fuel ih =>
    intro l hl
    cases l with
    | nil => simp [chunksGo, Nat.div_eq_of_lt (show k - 1 < k by omega)]
    | cons a as =>
      have hlen : (a :: as).length = as.length + 1 := List.length_cons a as
      show ((a :: as).take k :: chunksGo k fuel ((a :: as).drop k)).length = _
      rw [List.length_cons, ih ((a :: as).drop k) (by rw [List.length_drop]; omega)]
      rw [List.length_drop]
      rcases le_or_lt (a :: as).length k with hLk | hLk
      · have h0 : (a :: as).length - k = 0 := by omega
        rw [h0]
        rw [Nat.div_eq_of_lt (show 0 + k - 1 < k by omega)]
        rw [Nat.div_eq_of_lt_le (by omega : 1 * k ≤ (a :: as).length + k - 1)
          (by omega : (a :: as).length + k - 1 < (1 + 1) * k)]
      · have h3 : (a :: as).length - k + k - 1 = (a :: as).length - 1 := by omega
        have h4 : (a :: as).length + k - 1 = ((a :: as).length - 1) + k := by omega
        rw [h3, h4, Nat.add_div_right _ (by omega : 0 < k)]

theorem chunksGo_getD (k : ℕ) (hk : 1 ≤ k) :
    ∀ (fuel : ℕ) (l : List PImage) (g : ℕ), l.length ≤ fuel →
      (chunksGo k fuel l).getD g [] = (l.drop (g * k)).take k := by
  intro fuel
  induction fuel with
  | zero =>
    intro l g hl
    have hnil : l = [] := List.eq_nil_of_length_eq_zero (by omega)
    subst hnil
    simp [chunksGo]
  | succ fuel ih =>
    intro l g hl
    cases l with
    | nil => simp [chunksGo]
    | cons a as =>
      cases g with
      | zero =>
        show ((a :: as).take k :: chunksGo k fuel ((a :: as).drop k)).getD 0 [] = _
        simp
      | succ g =>
        show ((a :: as).take k :: chunksGo k fuel ((a :: as).drop k)).getD (g + 1) [] = _
        rw [List.getD_cons_succ, ih ((a :: as).drop k) g (by rw [List.length_drop]; omega)]
        rw [List.drop_drop]
        have hmul : k + g * k = (g + 1) * k := by ring
        rw [hmul]

theorem chunksGo_mem (k : ℕ) (hk : 1 ≤ k) :
    ∀ (fuel : ℕ) (l c : List PImage), c ∈ chunksGo k fuel l →
      c ≠ [] ∧ ∀ x ∈ c, x ∈ l := by
  intro fuel
  induction fuel with
  | zero => intro l c hc; simp [chunksGo] at hc
  | succ fuel ih =>
    intro l c hc
    cases l with
    | nil => simp [chunksGo] at hc
    | cons a as =>
      have hc' : c ∈ (a :: as).take k :: chunksGo k fuel ((a :: as).drop k) := hc
      rcases List.mem_cons.mp hc' with rfl | hmem
      · refine ⟨?_, fun x hx => List.mem_of_mem_take hx⟩
        cases k with
        | zero => omega
        | succ k => simp
      · obtain ⟨hne, hsub⟩ := ih ((a :: as).drop k) c hmem
        exact ⟨hne, fun x hx => List.mem_of_mem_drop (hsub x hx)⟩

theorem pasteLoop_width (cols w h : ℕ) :
    ∀ (group : List PImage) (canvas : PImage) (start : ℕ),
      (pasteLoop cols w h canvas start group).width = canvas.width := by
  intro group
  induction group with
  | nil => intro canvas start; rfl
  | cons img rest ih => intro canvas start; exact ih _ (start + 1)

theorem pasteLoop_height (cols w h : ℕ) :
    ∀ (group : List PImage) (canvas : PImage) (start : ℕ),
      (pasteLoop cols w h canvas start group).height = canvas.height := by
  intro group
  induction group with
  | nil => intro canvas start; rfl
  | cons img rest ih => intro canvas start; exact ih _ (start + 1)

theorem pasteLoop_pixel_miss (cols w h : ℕ) :
    ∀ (group : List PImage) (canvas : PImage) (start x y : ℕ),
      (∀ img ∈ group, img.width = w ∧ img.height = h) →
      (∀ j, start ≤ j → j < start + group.length → ¬inCell cols w h j x y) →
      (pasteLoop cols w h canvas start group).pixel x y = canvas.pixel x y := by
  intro group
  induction group with
  | nil => intro canvas start x y _ _; rfl
  | cons img rest ih =>
    intro canvas start x y hsz hmiss
    have hrec := ih (canvas.paste img ((start % cols) * w : ℕ) ((start / cols) * h : ℕ))
      (start + 1) x y (fun i hi => hsz i (List.mem_cons_of_mem _ hi))
      (fun j hj1 hj2 => hmiss j (by omega)
        (by simp only [List.length_cons] at hj2 ⊢; omega))
    show (pasteLoop cols w h
        (canvas.paste img ((start % cols) * w : ℕ) ((start / cols) * h : ℕ))
        (start + 1) rest).pixel x y = _
    rw [hrec]
    have hstart := hmiss start le_rfl (by simp only [List.length_cons]; omega)
    obtain ⟨hW, hH⟩ := hsz img (List.mem_cons_self _ _)
    unfold PImage.paste
    dsimp only
    split
    · rename_i hcond
      exfalso
      apply hstart
      rw [hW, hH] at hcond
      show (start % cols) * w ≤ x ∧ x < (start % cols) * w + w ∧
        (start / cols) * h ≤ y ∧ y < (start / cols) * h + h
      obtain ⟨c1, c2, c3, c4⟩ := hcond
      refine ⟨by omega, by omega, by omega, by omega⟩
    · rfl

theorem pasteLoop_pixel_hit (cols w h : ℕ) :
    ∀ (group : List PImage) (canvas : PImage) (start i dx dy : ℕ),
      (∀ img ∈ group, img.width = w ∧ img.height = h) →
      i < group.length → dx < w → dy < h →
      (∀ j, start ≤ j → j < start + group.length → j ≠ start + i →
        ¬inCell cols w h j (((start + i) % cols) * w + dx)
          (((start + i) / cols) * h + dy)) →
      (pasteLoop cols w h canvas start group).pixel
          (((start + i) % cols) * w + dx) (((start + i) / cols) * h + dy)
        = (group.getD i dfltImg).pixel dx dy := by
  intro group
  induction group with
  | nil => intro canvas start i dx dy _ hi _ _ _; simp at hi
  | cons img rest ih =>
    intro canvas start i dx dy hsz hi hdx hdy hmiss
    obtain ⟨hW, hH⟩ := hsz img (List.mem_cons_self _ _)
    cases i with
    | zero =>
      simp only [Nat.add_zero] at hmiss ⊢
      show (pasteLoop cols w h
          (canvas.paste img ((start % cols) * w : ℕ) ((start / cols) * h : ℕ))
          (start + 1) rest).pixel ((start % cols) * w + dx) ((start / cols) * h + dy)
        = img.pixel dx dy
      rw [pasteLoop_pixel_miss cols w h rest _ (start + 1) _ _
        (fun q hq => hsz q (List.mem_cons_of_mem _ hq))
        (fun j hj1 hj2 => hmiss j (by omega)
          (by simp only [List.length_cons] at hj2 ⊢; omega) (by omega))]
      unfold PImage.paste
      dsimp only
      split
      · have e1 : ((((start % cols) * w + dx : ℕ) : ℤ)
            - (((start % cols) * w : ℕ) : ℤ)).toNat = dx := by omega
        have e2 : ((((start / cols) * h + dy : ℕ) : ℤ)
            - (((start / cols) * h : ℕ) : ℤ)).toNat = dy := by omega
        rw [e1, e2]
      · rename_i hcond
        exfalso
        apply hcond
        rw [hW, hH]
        refine ⟨by omega, by omega, by omega, by omega⟩
    | succ i' =>
      have hstep : start + (i' + 1) = (start + 1) + i' := by omega
      rw [hstep]
      show (pasteLoop cols w h
          (canvas.paste img ((start % cols) * w : ℕ) ((start / cols) * h : ℕ))
          (start + 1) rest).pixel _ _ = (rest.getD i' dfltImg).pixel dx dy
      exact ih _ (start + 1) i' dx dy
        (fun q hq => hsz q (List.mem_cons_of_mem _ hq))
        (by simp only [List.length_cons] at hi; omega) hdx hdy
        (fun j hj1 hj2 hne => by
          rw [← hstep] at hne ⊢
          exact hmiss j (by omega)
            (by simp only [List.length_cons] at hj2 ⊢; omega) hne)

theorem inCell_unique {cols w h i j dx dy : ℕ} (hdx : dx < w) (hdy : dy < h)
    (hcell : inCell cols w h j ((i % cols) * w + dx) ((i / cols) * h + dy)) :
    j % cols = i % cols ∧ j / cols = i / cols := by
  unfold inCell at hcell
  obtain ⟨c1, c2, c3, c4⟩ := hcell
  constructor
  · rcases Nat.lt_trichotomy (j % cols) (i % cols) with hlt | heq | hgt
    · exfalso
      have hmul : (j % cols + 1) * w ≤ (i % cols) * w :=
        Nat.mul_le_mul_right w (by omega)
      rw [Nat.succ_mul] at hmul
      omega
    · exact heq
    · exfalso
      have hmul : (i % cols + 1) * w ≤ (j % cols) * w :=
        Nat.mul_le_mul_right w (by omega)
      rw [Nat.succ_mul] at hmul
      omega
  · rcases Nat.lt_trichotomy (j / cols) (i / cols) with hlt | heq | hgt
    · exfalso
      have hmul : (j / cols + 1) * h ≤ (i / cols) * h :=
        Nat.mul_le_mul_right h (by omega)
      rw [Nat.succ_mul] at hmul
      omega
    · exact heq
    · exfalso
      have hmul : (i / cols + 1) * h ≤ (j / cols) * h :=
        Nat.mul_le_mul_right h (by omega)
      rw [Nat.succ_mul] at hmul
      omega

theorem headD_mem {l : List PImage} (h : l ≠ []) : l.headD dfltImg ∈ l := by
  cases l with
  | nil => exact absurd rfl h
  | cons a t => simp

theorem getD_map_sheets (f : List PImage → PImage) (l : List (List PImage))
    (g : ℕ) (hg : g < l.length) :
    (l.map f).getD g dfltImg = f (l.getD g []) := by
  rw [List.getD_eq_getElem?_getD, List.getElem?_map, List.getElem?_eq_getElem hg,
    List.getD_eq_getElem?_getD, List.getElem?_eq_getElem hg]
  simp

theorem mkSheet_size (rows cols w h : ℕ) (group : List PImage) (hne : group ≠ [])
    (hsz : ∀ img ∈ group, img.width = w ∧ img.height = h) :
    (mkSheet rows cols group).width = cols * w ∧
      (mkSheet rows cols group).height = rows * h := by
  obtain ⟨hW, hH⟩ := hsz _ (headD_mem hne)
  unfold mkSheet
  rw [pasteLoop_width, pasteLoop_height]
  constructor
  · show cols * (group.headD dfltImg).width = cols * w
    rw [hW]
  · show rows * (group.headD dfltImg).height = rows * h
    rw [hH]

/-- C6: compositing m ≥ 1 equal-sized w×h images in an r×c grid yields
exactly ⌈m / (r·c)⌉ sheets (no blank sheet for an empty final chunk), each
sized (c·w, r·h); within each chunk the image at chunk-local index i covers
the pixel rectangle anchored at ((i % c)·w, (i div c)·h) — row-major order —
and grid cells beyond the last image stay background white. -/
theorem c6_grid_composition (images : List PImage) (rows cols w h : ℕ)
    (hm : 1 ≤ images.length) (hr : 1 ≤ rows) (hc : 1 ≤ cols)
    (hsz : ∀ img ∈ images, img.width = w ∧ img.height = h) :
    (merge_images images rows cols).length
        = (images.length + rows * cols - 1) / (rows * cols) ∧
      (∀ s ∈ merge_images images rows cols,
        s.width = cols * w ∧ s.height = rows * h) ∧
      (∀ g i dx dy, g * (rows * cols) + i < images.length → i < rows * cols →
        dx < w → dy < h →
        ((merge_images images rows cols).getD g dfltImg).pixel
            ((i % cols) * w + dx) ((i / cols) * h + dy)
          = (images.getD (g * (rows * cols) + i) dfltImg).pixel dx dy) ∧
      (∀ g i dx dy, g < (merge_images images rows cols).length →
        i < rows * cols → images.length ≤ g * (rows * cols) + i →
        dx < w → dy < h →
        ((merge_images images rows cols).getD g dfltImg).pixel
            ((i % cols) * w + dx) ((i / cols) * h + dy) = whiteColor) := by
  have hk : 0 < rows * cols := Nat.mul_pos hr hc
  have hlen : (merge_images images rows cols).length
      = (images.length + rows * cols - 1) / (rows * cols) := by
    unfold merge_images
    rw [List.length_map, chunksGo_length (rows * cols) hk images.length images le_rfl]
  refine ⟨hlen, ?_, ?_, ?_⟩
  · intro s hs
    unfold merge_images at hs
    rcases List.mem_map.mp hs with ⟨chunk, hchunk, rfl⟩
    obtain ⟨hne, hsub⟩ := chunksGo_mem (rows * cols) hk images.length images chunk hchunk
    exact mkSheet_size rows cols w h chunk hne fun img hi => hsz img (hsub img hi)
  · intro g i dx dy hgi hirc hdx hdy
    have hglt : g < (chunksGo (rows * cols) images.length images).length := by
      rw [chunksGo_length (rows * cols) hk images.length images le_rfl]
      have hmullt : (g + 1) * (rows * cols) ≤ images.length + rows * cols - 1 := by
        rw [Nat.succ_mul]
        omega
      have hdiv := (Nat.le_div_iff_mul_le hk).mpr hmullt
      omega
    unfold merge_images
    rw [getD_map_sheets _ _ _ hglt,
      chunksGo_getD (rows * cols) hk images.length images g le_rfl]
    have hchunklen : ((images.drop (g * (rows * cols))).take (rows * cols)).length
        = min (rows * cols) (images.length - g * (rows * cols)) := by
      rw [List.length_take, List.length_drop]
    have hchunkne : (images.drop (g * (rows * cols))).take (rows * cols) ≠ [] := by
      intro hnil
      have hc0 := congrArg List.length hnil
      rw [hchunklen] at hc0
      simp only [List.length_nil] at hc0
      omega
    have hsub : ∀ x ∈ (images.drop (g * (rows * cols))).take (rows * cols),
        x ∈ images :=
      fun x hx => List.mem_of_mem_drop (List.mem_of_mem_take hx)
    obtain ⟨hWhd, hHhd⟩ := hsz _ (hsub _ (headD_mem hchunkne))
    unfold mkSheet
    rw [hWhd, hHhd]
    have hmiss : ∀ j, 0 ≤ j →
        j < 0 + ((images.drop (g * (rows * cols))).take (rows * cols)).length →
        j ≠ 0 + i →
        ¬inCell cols w h j (((0 + i) % cols) * w + dx)
          (((0 + i) / cols) * h + dy) := by
      intro j _ hjlt hjne hcellj
      simp only [Nat.zero_add] at hjne hcellj
      obtain ⟨hj1, hj2⟩ := inCell_unique hdx hdy hcellj
      have hdm1 := Nat.div_add_mod j cols
      rw [hj1, hj2] at hdm1
      have hdm2 := Nat.div_add_mod i cols
      exact hjne (by omega)
    have hhit := pasteLoop_pixel_hit cols w h
      ((images.drop (g * (rows * cols))).take (rows * cols))
      (PImage.new (cols * w) (rows * h) whiteColor) 0 i dx dy
      (fun img hi2 => hsz img (hsub img hi2))
      (by rw [hchunklen]; omega) hdx hdy hmiss
    simp only [Nat.zero_add] at hhit
    rw [hhit]
    rw [List.getD_eq_getElem?_getD, List.getElem?_take_of_lt hirc,
      List.getElem?_drop, ← List.getD_eq_getElem?_getD]
  · intro g i dx dy hg hirc hge hdx hdy
    unfold merge_images at hg ⊢
    rw [List.length_map] at hg
    rw [getD_map_sheets _ _ _ hg,
      chunksGo_getD (rows * cols) hk images.length images g le_rfl]
    have hgrc : g * (rows * cols) < images.length := by
      rw [chunksGo_length (rows * cols) hk images.length images le_rfl] at hg
      have hdiv := (Nat.le_div_iff_mul_le hk).mp
        (by omega : g + 1 ≤ (images.length + rows * cols - 1) / (rows * cols))
      rw [Nat.succ_mul] at hdiv
      omega
    have hchunklen : ((images.drop (g * (rows * cols))).take (rows * cols)).length
        = min (rows * cols) (images.length - g * (rows * cols)) := by
      rw [List.length_take, List.length_drop]
    have hchunkne : (images.drop (g * (rows * cols))).take (rows * cols) ≠ [] := by
      intro hnil
      have hc0 := congrArg List.length hnil
      rw [hchunklen] at hc0
      simp only [List.length_nil] at hc0
      omega
    have hsub : ∀ x ∈ (images.drop (g * (rows * cols))).take (rows * cols),
        x ∈ images :=
      fun x hx => List.mem_of_mem_drop (List.mem_of_mem_take hx)
    obtain ⟨hWhd, hHhd⟩ := hsz _ (hsub _ (headD_mem hchunkne))
    unfold mkSheet
    rw [hWhd, hHhd]
    have hmiss : ∀ j, 0 ≤ j →
        j < 0 + ((images.drop (g * (rows * cols))).take (rows * cols)).length →
        ¬inCell cols w h j ((i % cols) * w + dx) ((i / cols) * h + dy) := by
      intro j _ hjlt hcellj
      obtain ⟨hj1, hj2⟩ := inCell_unique hdx hdy hcellj
      have hdm1 := Nat.div_add_mod j cols
      rw [hj1, hj2] at hdm1
      have hdm2 := Nat.div_add_mod i cols
      have hji : j = i := by omega
      rw [hchunklen] at hjlt
      omega
    rw [pasteLoop_pixel_miss cols w h
      ((images.drop (g * (rows * cols))).take (rows * cols))
      (PImage.new (cols * w) (rows * h) whiteColor) 0
      ((i % cols) * w + dx) ((i / cols) * h + dy)
      (fun img hi2 => hsz img (hsub img hi2)) hmiss]
    rfl

theorem c6_grid_composition_witness :
    (1 ≤ imgs5.length ∧ 1 ≤ 2 ∧ 1 ≤ 2 ∧
      ∀ img ∈ imgs5, img.width = 1 ∧ img.height = 1) ∧
      ((merge_images imgs5 2 2).length = (imgs5.length + 2 * 2 - 1) / (2 * 2) ∧
        (∀ s ∈ merge_images imgs5 2 2, s.width = 2 * 1 ∧ s.height = 2 * 1) ∧
        (∀ g i dx dy, g * (2 * 2) + i < imgs5.length → i < 2 * 2 →
          dx < 1 → dy < 1 →
          ((merge_images imgs5 2 2).getD g dfltImg).pixel
              ((i % 2) * 1 + dx) ((i / 2) * 1 + dy)
            = (imgs5.getD (g * (2 * 2) + i) dfltImg).pixel dx dy) ∧
        (∀ g i dx dy, g < (merge_images imgs5 2 2).length → i < 2 * 2 →
          imgs5.length ≤ g * (2 * 2) + i → dx < 1 → dy < 1 →
          ((merge_images imgs5 2 2).getD g dfltImg).pixel
              ((i % 2) * 1 + dx) ((i / 2) * 1 + dy) = whiteColor)) :=
  ⟨⟨by decide, by decide, by decide, by decide⟩,
    c6_grid_composition imgs5 2 2 1 1 (by decide) (by decide) (by decide) (by decide)⟩

/-! ## Properties of the pipeline orchestrator -/

theorem finishSave_cases (p : JobParams) (merged : List PImage) (evs : List Event)
    (sr : Except String Unit) :
    ((finishSave p merged evs sr).1 = evs ∧
        ∃ e, (finishSave p merged evs sr).2 = Except.error e) ∨
      ((finishSave p merged evs sr).1
          = evs ++ [Event.doneNotified (outputPathOf p)] ∧
        (finishSave p merged evs sr).2 = Except.ok (outputPathOf p)) := by
  unfold finishSave
  split
  · cases merged with
    | nil => exact Or.inl ⟨rfl, msgEmptyOutput, rfl⟩
    | cons a t =>
      cases sr with
      | error m => exact Or.inl ⟨rfl, m, rfl⟩
      | ok u => exact Or.inr ⟨rfl, rfl⟩
  · cases merged with
    | nil => exact Or.inr ⟨rfl, rfl⟩
    | cons a t =>
      cases sr with
      | error m => exact Or.inl ⟨rfl, m, rfl⟩
      | ok u => exact Or.inr ⟨rfl, rfl⟩

theorem mergeAndSave_cases (p : JobParams) (processed : List PImage)
    (evs : List Event) (sr : Except String Unit) :
    ((mergeAndSave p processed evs sr).1 = evs ∧
        ∃ e, (mergeAndSave p processed evs sr).2 = Except.error e) ∨
      ((mergeAndSave p processed evs sr).1
          = evs ++ [Event.doneNotified (outputPathOf p)] ∧
        (mergeAndSave p processed evs sr).2 = Except.ok (outputPathOf p)) := by
  unfold mergeAndSave
  split
  · exact Or.inl ⟨rfl, msgZeroStep, rfl⟩
  · split
    · exact finishSave_cases p [] evs sr
    · split
      · exact Or.inl ⟨rfl, msgNegSize, rfl⟩
      · exact finishSave_cases p _ evs sr

theorem process_try_cases (resample : ResampleFn) (drawText : DrawFn)
    (p : JobParams) (rr : Except String (List PImage)) (sr : Except String Unit) :
    ((process_try resample drawText p rr sr).1 = [] ∧
        ∃ e, (process_try resample drawText p rr sr).2 = Except.error e) ∨
      (∃ images : List PImage, rr = Except.ok images ∧ 1 ≤ images.length ∧
        (((process_try resample drawText p rr sr).1 = preMergeEvents p images.length ∧
            ∃ e, (process_try resample drawText p rr sr).2 = Except.error e) ∨
          ((process_try resample drawText p rr sr).1
              = preMergeEvents p images.length
                ++ [Event.doneNotified (outputPathOf p)] ∧
            (process_try resample drawText p rr sr).2
              = Except.ok (outputPathOf p)))) := by
  cases rr with
  | error msg => exact Or.inl ⟨rfl, msg, rfl⟩
  | ok images =>
    by_cases h0 : images.length = 0
    · refine Or.inl ?_
      unfold process_try
      dsimp only
      rw [if_pos h0]
      exact ⟨rfl, msgNoPages, rfl⟩
    · refine Or.inr ⟨images, rfl, by omega, ?_⟩
      unfold process_try
      dsimp only
      rw [if_neg h0]
      exact mergeAndSave_cases p _ _ sr

theorem errorShown_not_mem_preMerge (p : JobParams) (n : ℕ) (t m : String) :
    Event.errorShown t m ∉ preMergeEvents p n := by
  unfold preMergeEvents
  simp

theorem doneNotified_not_mem_preMerge (p : JobParams) (n : ℕ) (path : String) :
    Event.doneNotified path ∉ preMergeEvents p n := by
  unfold preMergeEvents
  simp

theorem mergeInvoked_mem_preMerge (p : JobParams) (n : ℕ) :
    Event.mergeInvoked p.rows p.cols ∈ preMergeEvents p n := by
  unfold preMergeEvents
  simp

theorem process_pdf_eq_of_error (resample : ResampleFn) (drawText : DrawFn)
    (p : JobParams) (rr : Except String (List PImage)) (sr : Except String Unit)
    (e : String)
    (herr : (process_try resample drawText p rr sr).2 = Except.error e) :
    process_pdf resample drawText p rr sr
      = (process_try resample drawText p rr sr).1
        ++ [Event.errorShown sErrTitle (failMsg e)] := by
  unfold process_pdf
  rcases hpt : process_try resample drawText p rr sr with ⟨evs, outc⟩
  rw [hpt] at herr
  cases outc with
  | error e' =>
    simp only [Except.error.injEq] at herr
    subst herr
    rfl
  | ok o => simp at herr

theorem process_pdf_eq_of_ok (resample : ResampleFn) (drawText : DrawFn)
    (p : JobParams) (rr : Except String (List PImage)) (sr : Except String Unit)
    (out : String)
    (hok : (process_try resample drawText p rr sr).2 = Except.ok out) :
    process_pdf resample drawText p rr sr
      = (process_try resample drawText p rr sr).1 := by
  unfold process_pdf
  rcases hpt : process_try resample drawText p rr sr with ⟨evs, outc⟩
  rw [hpt] at hok
  cases outc with
  | error e' => simp at hok
  | ok o => rfl

/-- C9: on any fatal failure the run stops at the point of failure — the
trace is exactly the events already produced followed by one error dialog
with the human-readable message 处理失败：str(e) — the error report occurs
exactly once, and the completion callback is never invoked. -/
theorem c9_failure_surfaced_once (resample : ResampleFn) (drawText : DrawFn)
    (p : JobParams) (rr : Except String (List PImage)) (sr : Except String Unit)
    (e : String)
    (herr : (process_try resample drawText p rr sr).2 = Except.error e) :
    process_pdf resample drawText p rr sr
        = (process_try resample drawText p rr sr).1
          ++ [Event.errorShown sErrTitle (failMsg e)]
      ∧ ((process_pdf resample drawText p rr sr).filter Event.isErrorDialog).length = 1
      ∧ ∀ path, Event.doneNotified path ∉ process_pdf resample drawText p rr sr := by
  have heq := process_pdf_eq_of_error resample drawText p rr sr e herr
  have htrace : (process_try resample drawText p rr sr).1 = []
      ∨ ∃ n, (process_try resample drawText p rr sr).1 = preMergeEvents p n := by
    rcases process_try_cases resample drawText p rr sr with
      ⟨h1, _⟩ | ⟨images, _, _, ⟨h1, _⟩ | ⟨h1, h2⟩⟩
    · exact Or.inl h1
    · exact Or.inr ⟨images.length, h1⟩
    · rw [h2] at herr
      simp at herr
  refine ⟨heq, ?_, ?_⟩
  · rw [heq, List.filter_append]
    have hnil : (process_try resample drawText p rr sr).1.filter Event.isErrorDialog
        = [] := by
      rcases htrace with h | ⟨n, h⟩
      · rw [h]; rfl
      · rw [h, List.filter_eq_nil_iff]
        intro a ha
        unfold preMergeEvents at ha
        rcases List.mem_append.mp ha with ha | ha
        · rcases List.mem_map.mp ha with ⟨k, _, rfl⟩
          simp [Event.isErrorDialog]
        · rw [List.mem_singleton] at ha
          subst ha
          simp [Event.isErrorDialog]
    rw [hnil]
    rfl
  · intro path hmem
    rw [heq] at hmem
    rcases List.mem_append.mp hmem with hmem | hmem
    · rcases htrace with h | ⟨n, h⟩
      · rw [h] at hmem
        simp at hmem
      · rw [h] at hmem
        exact doneNotified_not_mem_preMerge p n path hmem
    · simp at hmem

/-- A concrete renderer failure, for the C9 witness. -/
theorem c9_failure_surfaced_once_witness :
    ((process_try trivResample trivDraw sampleParams
        (Except.error msgRenderFail) (Except.ok ())).2
          = Except.error msgRenderFail) ∧
      (process_pdf trivResample trivDraw sampleParams
          (Except.error msgRenderFail) (Except.ok ())
          = (process_try trivResample trivDraw sampleParams
              (Except.error msgRenderFail) (Except.ok ())).1
            ++ [Event.errorShown sErrTitle (failMsg msgRenderFail)]
        ∧ ((process_pdf trivResample trivDraw sampleParams
            (Except.error msgRenderFail) (Except.ok ())).filter
              Event.isErrorDialog).length = 1
        ∧ ∀ path, Event.doneNotified path ∉
            process_pdf trivResample trivDraw sampleParams
              (Except.error msgRenderFail) (Except.ok ())) :=
  ⟨rfl, c9_failure_surfaced_once trivResample trivDraw sampleParams
    (Except.error msgRenderFail) (Except.ok ()) msgRenderFail rfl⟩

/-- C8 as stated is false: process_pdf performs no rows/cols validation, and
the grid compositor is invoked even when the parameters carry rows = 0. -/
theorem c8_counterexample_rows0 :
    rows0Params.rows = 0 ∧
      Event.mergeInvoked rows0Params.rows rows0Params.cols ∈
        process_pdf trivResample trivDraw rows0Params
          (Except.ok [imgA]) (Except.ok ()) := by
  constructor
  · rfl
  · decide

/-- C8 amended: the orchestrator never rejects nonpositive rows/cols — the
compositor is invoked with whatever values the parameters carry; when
rows·cols = 0 the zero-step range error raised inside the compositor call is
what aborts the run, surfaced by the top-level handler, and the completion
callback is not invoked. -/
theorem c8_amended_unvalidated_grid (resample : ResampleFn) (drawText : DrawFn)
    (p : JobParams) (images : List PImage) (sr : Except String Unit)
    (hne : 1 ≤ images.length) (hz : p.rows * p.cols = 0) :
    Event.mergeInvoked p.rows p.cols ∈
        process_pdf resample drawText p (Except.ok images) sr
      ∧ process_pdf resample drawText p (Except.ok images) sr
          = preMergeEvents p images.length
            ++ [Event.errorShown sErrTitle (failMsg msgZeroStep)]
      ∧ ∀ path, Event.doneNotified path ∉
          process_pdf resample drawText p (Except.ok images) sr := by
  have htry : process_try resample drawText p (Except.ok images) sr
      = (preMergeEvents p images.length, Except.error msgZeroStep) := by
    unfold process_try
    dsimp only
    rw [if_neg (by omega : ¬images.length = 0)]
    unfold mergeAndSave
    rw [if_pos hz]
  have hpdf := process_pdf_eq_of_error resample drawText p (Except.ok images) sr
    msgZeroStep (by rw [htry])
  rw [htry] at hpdf
  refine ⟨?_, ?_, ?_⟩
  · rw [hpdf]
    exact List.mem_append_left _ (mergeInvoked_mem_preMerge p images.length)
  · rw [hpdf]
  · intro path hmem
    rw [hpdf] at hmem
    rcases List.mem_append.mp hmem with hmem | hmem
    · exact doneNotified_not_mem_preMerge p images.length path hmem
    · simp at hmem

theorem c8_amended_unvalidated_grid_witness :
    (1 ≤ ([imgA] : List PImage).length ∧
        rows0Params.rows * rows0Params.cols = 0) ∧
      (Event.mergeInvoked rows0Params.rows rows0Params.cols ∈
          process_pdf trivResample trivDraw rows0Params
            (Except.ok [imgA]) (Except.ok ())
        ∧ process_pdf trivResample trivDraw rows0Params
            (Except.ok [imgA]) (Except.ok ())
            = preMergeEvents rows0Params ([imgA] : List PImage).length
              ++ [Event.errorShown sErrTitle (failMsg msgZeroStep)]
        ∧ ∀ path, Event.doneNotified path ∉
            process_pdf trivResample trivDraw rows0Params
              (Except.ok [imgA]) (Except.ok ())) :=
  ⟨⟨by decide, by decide⟩,
    c8_amended_unvalidated_grid trivResample trivDraw rows0Params [imgA]
      (Except.ok ()) (by decide) (by decide)⟩

theorem progressValues_append (a b : List Event) :
    progressValues (a ++ b) = progressValues a ++ progressValues b := by
  unfold progressValues
  rw [List.filterMap_append]

theorem progressValues_map (v : ℕ → ℚ) (l : List ℕ) :
    progressValues (l.map (fun k => Event.progress (v k))) = l.map v := by
  induction l with
  | nil => rfl
  | cons a t ih =>
    simp only [List.map_cons]
    show v a :: progressValues (t.map (fun k => Event.progress (v k)))
      = v a :: t.map v
    rw [ih]

theorem progressValues_preMerge (p : JobParams) (n : ℕ) :
    progressValues (preMergeEvents p n)
      = (List.range n).map
          (fun k : ℕ => ((k : ℚ) + 1) / ((n + 2 : ℕ) : ℚ) * 100) := by
  unfold preMergeEvents
  rw [progressValues_append,
    progressValues_map (fun k : ℕ => ((k : ℚ) + 1) / ((n + 2 : ℕ) : ℚ) * 100)]
  rw [show progressValues [Event.mergeInvoked p.rows p.cols] = [] from rfl,
    List.append_nil]

/-- C10: on a successful run over n rendered pages the progress callback is
invoked exactly n times, with the values ((k+1)/(n+2))·100 for k = 0..n-1 in
order — a strictly increasing sequence that never reaches 100, because the
two remaining counted steps (compositing and serialization) report no
progress. -/
theorem c10_progress_sequence (resample : ResampleFn) (drawText : DrawFn)
    (p : JobParams) (images : List PImage) (sr : Except String Unit)
    (out : String)
    (hok : (process_try resample drawText p (Except.ok images) sr).2
      = Except.ok out) :
    progressValues (process_pdf resample drawText p (Except.ok images) sr)
        = (List.range images.length).map
            (fun k : ℕ => ((k : ℚ) + 1) / ((images.length + 2 : ℕ) : ℚ) * 100)
      ∧ 1 ≤ images.length
      ∧ (progressValues
          (process_pdf resample drawText p (Except.ok images) sr)).Sorted (· < ·)
      ∧ ∀ v ∈ progressValues
          (process_pdf resample drawText p (Except.ok images) sr), v < 100 := by
  have hpdf := process_pdf_eq_of_ok resample drawText p (Except.ok images) sr out hok
  rcases process_try_cases resample drawText p (Except.ok images) sr with
    ⟨h1, e, h2⟩ | ⟨images', heq, hlen, hsub⟩
  · rw [h2] at hok
    simp at hok
  · injection heq with h
    subst h
    have htr : (process_try resample drawText p (Except.ok images) sr).1
        = preMergeEvents p images.length
          ++ [Event.doneNotified (outputPathOf p)] := by
      rcases hsub with ⟨h1, e, h2⟩ | ⟨h1, h2⟩
      · rw [h2] at hok
        simp at hok
      · exact h1
    have hval : progressValues
        (process_pdf resample drawText p (Except.ok images) sr)
        = (List.range images.length).map
            (fun k : ℕ => ((k : ℚ) + 1) / ((images.length + 2 : ℕ) : ℚ) * 100) := by
      rw [hpdf, htr, progressValues_append, progressValues_preMerge]
      rw [show progressValues [Event.doneNotified (outputPathOf p)] = [] from rfl,
        List.append_nil]
    have hden : (0 : ℚ) < ((images.length + 2 : ℕ) : ℚ) := by
      push_cast
      positivity
    refine ⟨hval, hlen, ?_, ?_⟩
    · rw [hval, List.Sorted, List.pairwise_map]
      refine (List.pairwise_lt_range images.length).imp ?_
      intro a b hab
      have hnum : ((a : ℚ) + 1) < ((b : ℚ) + 1) := by
        have hcast : (a : ℚ) < (b : ℚ) := by exact_mod_cast hab
        linarith
      have hdiv := (div_lt_div_iff_of_pos_right hden).mpr hnum
      exact mul_lt_mul_of_pos_right hdiv (by norm_num : (0 : ℚ) < 100)
    · intro v hv
      rw [hval] at hv
      rcases List.mem_map.mp hv with ⟨k, hk, rfl⟩
      rw [List.mem_range] at hk
      have hlt1 : ((k : ℚ) + 1) / ((images.length + 2 : ℕ) : ℚ) < 1 := by
        rw [div_lt_one hden]
        push_cast
        have hcast : (k : ℚ) < (images.length : ℚ) := by exact_mod_cast hk
        linarith
      have hmul := mul_lt_mul_of_pos_right hlt1 (by norm_num : (0 : ℚ) < 100)
      rw [one_mul] at hmul
      exact hmul

theorem c10_progress_sequence_witness :
    ((process_try trivResample trivDraw sampleParams
        (Except.ok [imgA]) (Except.ok ())).2 = Except.ok outPathPdf) ∧
      (progressValues (process_pdf trivResample trivDraw sampleParams
            (Except.ok [imgA]) (Except.ok ()))
          = (List.range ([imgA] : List PImage).length).map
              (fun k : ℕ =>
                ((k : ℚ) + 1) / ((([imgA] : List PImage).length + 2 : ℕ) : ℚ) * 100)
        ∧ 1 ≤ ([imgA] : List PImage).length
        ∧ (progressValues (process_pdf trivResample trivDraw sampleParams
            (Except.ok [imgA]) (Except.ok ()))).Sorted (· < ·)
        ∧ ∀ v ∈ progressValues (process_pdf trivResample trivDraw sampleParams
            (Except.ok [imgA]) (Except.ok ())), v < 100) :=
  ⟨rfl, c10_progress_sequence trivResample trivDraw sampleParams [imgA]
    (Except.ok ()) outPathPdf rfl⟩

end PDFTool
